import Mathlib

/- Verification development for the mlinc neural-network training engine.
   Each C function is shallowly embedded: float arithmetic is modelled by
   exact real arithmetic (ℝ), C int arithmetic by ℤ/ℕ, in-place buffer
   updates by functional state passing.  Log-domain float values that can
   be -infinity are modelled by WithBot ℝ, and a loss value that can be
   +infinity by WithTop ℝ. -/

namespace Mlinc

noncomputable section

/- ===================== numeric/clip.h ===================== -/

/-- Embedding of the per-element body of clip_gradients (src/numeric/clip.h):
    m = fabsf(g); if m > gmax then g = (g > 0) ? gmax : -gmax
    else if m < gmin then g = (g > 0) ? gmin : -gmin. -/
def clip1 (gmin gmax g : ℝ) : ℝ :=
  if |g| > gmax then (if g > 0 then gmax else -gmax)
  else if |g| < gmin then (if g > 0 then gmin else -gmin)
  else g

/-- Embedding of clip_gradients (src/numeric/clip.h): the double loop applies
    the clip body independently to every element of the M x N array. -/
def clip_gradients (gmin gmax : ℝ) (ga : List (List ℝ)) : List (List ℝ) :=
  ga.map (fun row => row.map (clip1 gmin gmax))

/-- Claim C5 exactly as stated: for bounds 0 < gMin <= gMax, after
    clip_gradients every output element's absolute value lies in
    [gMin, gMax] and its sign matches the sign of the corresponding input
    element, for all input values including elements equal to zero. -/
def ClipClaim : Prop :=
  ∀ (ga : List (List ℝ)) (gmin gmax : ℝ), 0 < gmin → gmin ≤ gmax →
    ∀ i j, i < ga.length → j < (ga.getD i []).length →
      (gmin ≤ |((clip_gradients gmin gmax ga).getD i []).getD j 0|
       ∧ |((clip_gradients gmin gmax ga).getD i []).getD j 0| ≤ gmax
       ∧ (0 < (ga.getD i []).getD j 0 →
            0 < ((clip_gradients gmin gmax ga).getD i []).getD j 0)
       ∧ ((ga.getD i []).getD j 0 < 0 →
            ((clip_gradients gmin gmax ga).getD i []).getD j 0 < 0)
       ∧ ((ga.getD i []).getD j 0 = 0 →
            ((clip_gradients gmin gmax ga).getD i []).getD j 0 = 0))

/- ===================== model/adamw.c ===================== -/

/-- Embedding of the static adamw() element update (src/model/adamw.c).
    The C function terminates the process when *v < 0 ("weight or gradient
    explosion"); that fatal path is modelled by none.  beta1 = 0.9,
    beta2 = 0.999, epsilon = 1.0e-7 as in the source.  Returns the updated
    (weight, moment1, moment2) triple. -/
def adamwElem (w g m v lr wd : ℝ) (k : ℕ) : Option (ℝ × ℝ × ℝ) :=
  if v < 0 then none
  else
    let m1 := 0.9 * m + (1 - 0.9) * g
    let v1 := 0.999 * v + (1 - 0.999) * g * g
    let mh := m1 / (1 - 0.9 ^ k)
    let vh := v1 / (1 - 0.999 ^ k)
    let ag := mh / (Real.sqrt vh + 1.0e-7)
    some (w - lr * (ag + wd * w), m1, v1)

/-- Embedding of one element of adamw_update (src/model/adamw.c): the array
    version first runs clip_gradients(g,M,N,1.0e-12,10.0) on the gradient
    array and then applies adamw() to every element; per element that is
    adamwElem applied to the clipped gradient. -/
def adamwUpdateElem (w g m v lr wd : ℝ) (k : ℕ) : Option (ℝ × ℝ × ℝ) :=
  adamwElem w (clip1 1.0e-12 10 g) m v lr wd k

/- ===================== numeric/activation.h ===================== -/

/-- Embedding of d_sigmoid_1 (src/numeric/activation.h): derivative of the
    sigmoid expressed in terms of its output z. -/
def d_sigmoid_1 (z : ℝ) : ℝ := z * (1 - z)

/-- Embedding of d_relu_1 (src/numeric/activation.h): (z > 0.0) ? 1.0 : 0.0. -/
def d_relu_1 (z : ℝ) : ℝ := if 0 < z then 1 else 0

/- ===================== model/dense.h ===================== -/

/-- Embedding of dense_backward (src/model/dense.h).  Matrices are functions
    of row and column index; the dimensions B, D, S bound the loops.
    gWx = X.T @ dy comes from Tmatmul (which clears gWx first, so it is an
    overwrite).  When an input-gradient buffer is supplied (dx != NULL),
    dx = dy @ Wx.T from matmulT, then d_sigmoid / d_relu multiply dx in
    place by the derivative evaluated at the entries of X; for softmax
    ('S') and none ('n') no factor is applied. -/
def dense_backward (a : Char) (Wx dy X : ℕ → ℕ → ℝ) (B S : ℕ)
    (wantDx : Bool) : (ℕ → ℕ → ℝ) × Option (ℕ → ℕ → ℝ) :=
  let gWx : ℕ → ℕ → ℝ := fun j k => ∑ i in Finset.range B, X i j * dy i k
  if wantDx then
    let dx0 : ℕ → ℕ → ℝ := fun i j => ∑ k in Finset.range S, dy i k * Wx j k
    let dx : ℕ → ℕ → ℝ :=
      if a = 's' then fun i j => dx0 i j * d_sigmoid_1 (X i j)
      else if a = 'r' then fun i j => dx0 i j * d_relu_1 (X i j)
      else dx0
    (gWx, some dx)
  else (gWx, none)

/-- Transpose of a matrix-as-function (spec-side vocabulary for C3). -/
def transposeF (M : ℕ → ℕ → ℝ) : ℕ → ℕ → ℝ := fun i j => M j i

/-- Matrix product of matrices-as-functions with inner dimension d
    (spec-side vocabulary for C3). -/
def matProdF (A B : ℕ → ℕ → ℝ) (d : ℕ) : ℕ → ℕ → ℝ :=
  fun i j => ∑ k in Finset.range d, A i k * B k j

/-- Spec-side activation-derivative factor of claim C3: z*(1-z) for sigmoid,
    the indicator of z > 0 for ReLU, and no factor (1) for softmax or none. -/
def dActFactor (a : Char) (z : ℝ) : ℝ :=
  if a = 's' then z * (1 - z) else if a = 'r' then (if 0 < z then 1 else 0) else 1

/- ===================== model/embedding.h ===================== -/

/-- Embedding of embedding_forward (src/model/embedding.h) for one batch row i.
    After fltclr, the loops execute h[i][j] += Wx[(int)X[i][j]][k] for
    j < M and k < E, so column j of the output accumulates the sum of ALL
    E components of the embedding row selected by context position j, and
    columns M <= j < S stay zero (embedding_create sets S = E; this rendering
    is layout-exact when M <= E, where no write leaves row i). -/
def embedding_forward (M E : ℕ) (Wx : ℕ → ℕ → ℝ) (X : ℕ → ℕ → ℕ)
    (i j : ℕ) : ℝ :=
  if j < M then ∑ k in Finset.range E, Wx (X i j) k else 0

/-- Modelled from the spec's words, for comparison with embedding_forward:
    "forward sums the embedding rows of a context's token indices (ignoring
    a configurable pad index) into one output vector per sample" — component
    k of sample i's output is the sum over non-pad context positions j of
    component k of the selected embedding row. -/
def embeddingForwardSpec (M : ℕ) (padinx : ℤ) (Wx : ℕ → ℕ → ℝ)
    (X : ℕ → ℕ → ℕ) (i k : ℕ) : ℝ :=
  ∑ j in (Finset.range M).filter (fun j => (X i j : ℤ) ≠ padinx), Wx (X i j) k

/- ===================== model/lstm.h (forward pass) ===================== -/

/-- Embedding of sigmoid (src/numeric/activation.h) applied to one row of
    length S: m[j] = 1.0 / (1.0 + exp(-m[j])). -/
def sigmoidV (v : ℕ → ℝ) : ℕ → ℝ := fun j => 1 / (1 + Real.exp (-(v j)))

/-- Embedding of relu (src/numeric/activation.h) applied to one row:
    entries below zero are replaced by zero. -/
def reluV (v : ℕ → ℝ) : ℕ → ℝ := fun j => if v j < 0 then 0 else v j

/-- Embedding of softmax (src/numeric/activation.h) applied to one row of
    length S.  The source's running maximum starts at 0.0, so the shift is
    max(0, max of the row); then each entry becomes exp(p-shift) divided by
    the row sum of those exponentials. -/
def softmaxV (S : ℕ) (v : ℕ → ℝ) : ℕ → ℝ := fun j =>
  let mx := (List.range S).foldl (fun m i => if m < v i then v i else m) 0
  Real.exp (v j - mx) / ∑ i in Finset.range S, Real.exp (v i - mx)

/-- Embedding of the nested activate() helper of lstm_forward
    (src/model/lstm.h): dispatch on the layer's activation character;
    any other character leaves the row unchanged. -/
def activateVec (a : Char) (S : ℕ) (v : ℕ → ℝ) : ℕ → ℝ :=
  match a with
  | 's' => sigmoidV v
  | 'r' => reluV v
  | 'S' => softmaxV S v
  | _ => v

/-- Weights and dimensions of an LSTM layer (struct lstm_s of
    src/model/lstm.h, restricted to the fields read by the forward pass). -/
structure LSTMP where
  D : ℕ
  S : ℕ
  activation : Char
  Wf : ℕ → ℕ → ℝ
  Wi : ℕ → ℕ → ℝ
  Wc : ℕ → ℕ → ℝ
  Wo : ℕ → ℕ → ℝ
  Uf : ℕ → ℕ → ℝ
  Ui : ℕ → ℕ → ℝ
  Uc : ℕ → ℕ → ℝ
  Uo : ℕ → ℕ → ℝ

/-- Embedding of the pair of addvecmatmul calls that build a gate row of
    lstm_forward: the row starts cleared, then accumulates x @ W (D terms)
    and h[t-1] @ U (S terms). -/
def gatePre (l : LSTMP) (W U : ℕ → ℕ → ℝ) (x h : ℕ → ℝ) : ℕ → ℝ :=
  fun j => (∑ d in Finset.range l.D, x d * W d j) +
           (∑ s in Finset.range l.S, h s * U s j)

/-- Embedding of one timestep t of the lstm_forward loop (src/model/lstm.h):
    gates f, i, o activated by the layer's activation, candidate cc through
    tanh, c[t] = f*c[t-1] + i*cc, h[t] = o*tanh(c[t]).  Input: the timestep's
    input row and the previous (hidden, cell) pair; output: the new pair. -/
def lstmCell (l : LSTMP) (x : ℕ → ℝ) (hc : (ℕ → ℝ) × (ℕ → ℝ)) :
    (ℕ → ℝ) × (ℕ → ℝ) :=
  let f := activateVec l.activation l.S (gatePre l l.Wf l.Uf x hc.1)
  let i := activateVec l.activation l.S (gatePre l l.Wi l.Ui x hc.1)
  let o := activateVec l.activation l.S (gatePre l l.Wo l.Uo x hc.1)
  let cc := fun j => Real.tanh (gatePre l l.Wc l.Uc x hc.1 j)
  let c := fun j => f j * hc.2 j + i j * cc j
  let h := fun j => o j * Real.tanh (c j)
  (h, c)

/-- Embedding of the lstm_forward timestep loop run for t = 0..n-1 starting
    from carry pair hc0 (for a stateful layer, hc0 = (ph, pc); after
    lstm_reset both are zero).  The value at n is the (h[n-1], c[n-1]) pair
    that lstm_forward copies back into (ph, pc) at the end of the batch. -/
def lstmRun (l : LSTMP) (x : ℕ → ℕ → ℝ) (hc0 : (ℕ → ℝ) × (ℕ → ℝ)) :
    ℕ → (ℕ → ℝ) × (ℕ → ℝ)
  | 0 => hc0
  | n + 1 => lstmCell l (x n) (lstmRun l x hc0 n)

/-- Embedding of lstm_reset (src/model/lstm.c): ph and pc cleared to zero. -/
def lstmResetCarry : (ℕ → ℝ) × (ℕ → ℝ) := (fun _ => 0, fun _ => 0)

end

/- ===================== numeric/random.c, random.h ===================== -/

/-- Embedding of init_lrng (src/numeric/random.c): seed & 0x7FFFFFFF.
    On a two's-complement int32 the bitwise AND that clears the sign bit
    equals reduction of the seed modulo 2^31 (Int.emod, nonnegative). -/
def initLrng (seed : ℤ) : ℤ := seed % 2147483648

/-- Embedding of the state transition inside lrng (src/numeric/random.h):
    Lehmer generator by Schrage's method, modulus 2147483647,
    multiplier 48271, q = modulus / multiplier, r = modulus % multiplier.
    (For seeds in range no int32 overflow occurs, so plain ℤ is exact.) -/
def lrngStep (s : ℤ) : ℤ :=
  let q : ℤ := 2147483647 / 48271
  let r : ℤ := 2147483647 % 48271
  let t := 48271 * (s % q) - r * (s / q)
  if t > 0 then t else t + 2147483647

/-- Embedding of lrng (src/numeric/random.h): advance the seed and return
    the new seed divided by the modulus, together with the new seed.
    The float value is modelled exactly as a rational. -/
def lrng (s : ℤ) : ℚ × ℤ :=
  let s1 := lrngStep s
  ((s1 : ℚ) / 2147483647, s1)

/-- Embedding of urand (src/numeric/random.h): lrng() * (max - min) + min. -/
def urand (lo hi : ℚ) (s : ℤ) : ℚ × ℤ :=
  let n := lrng s
  (n.1 * (hi - lo) + lo, n.2)

/- ===================== data/batch.c ===================== -/

/-- Iterator part of struct batch_s (src/data/batch.c): exactly one of the
    three modes batch_copy dispatches on.  seqs carries shufSeq (sequence
    start offsets) and shufLen (sequence lengths) plus the cursor pair
    (curSeq, curVec); flat carries shufVec and curVec; plain (both arrays
    NULL) carries only curVec. -/
inductive BatchIt where
  | seqs (seqStart seqLen : List ℕ) (curSeq curVec : ℕ)
  | flat (vec : List ℕ) (curVec : ℕ)
  | plain (curVec : ℕ)

/-- Static configuration of a batch iterator: batch size B, total count num
    (rows for flat/plain, sequences for seqs) and the shuffle flag. -/
structure BatchCfg where
  B : ℕ
  num : ℕ
  shuffle : Bool

/-- Embedding of batch_copy (src/data/batch.c), restricted to the data that
    feeds back into the iterator: the returned sample count and the advanced
    cursor.  In seqs mode with curSeq < num the copy loop runs while
    cnt < B and curVec < shufLen[curSeq], i.e. cnt = min B (seqLen - curVec),
    and when curVec reaches seqLen the cursor moves to the next sequence;
    past the last sequence cnt stays 0.  In flat and plain modes the loop
    runs while cnt < B and curVec < num, i.e. cnt = min B (num - curVec).
    The copied rows land in caller-owned buffers (with 1.0 / 0.0 padding of
    a short batch) and never influence the cursor or the counts. -/
def batch_copy (cfg : BatchCfg) : BatchIt → ℕ × BatchIt
  | .seqs st lens cs cv =>
    if cs < cfg.num then
      let seqLen := lens.getD cs 0
      let cnt := min cfg.B (seqLen - cv)
      let cv1 := cv + cnt
      if seqLen ≤ cv1 then (cnt, .seqs st lens (cs + 1) 0)
      else (cnt, .seqs st lens cs cv1)
    else (0, .seqs st lens cs cv)
  | .flat vec cv =>
    let cnt := min cfg.B (cfg.num - cv)
    (cnt, .flat vec (cv + cnt))
  | .plain cv =>
    let cnt := min cfg.B (cfg.num - cv)
    (cnt, .plain (cv + cnt))

/-- Embedding of the in-place three-assignment swap used by batch_shuffle:
    tmp = a[i]; a[i] = a[j]; a[j] = tmp. -/
def swapL (l : List ℕ) (i j : ℕ) : List ℕ :=
  (l.set i (l.getD j 0)).set j (l.getD i 0)

/-- One iteration of the inner Fisher-Yates loop of batch_shuffle
    (src/data/batch.c) at index i: j = (int) urand(0.0, 1.0 + i), then the
    element lists are swapped at i and j (seqs mode swaps shufSeq and
    shufLen in lockstep with the same j; flat mode passes a single list
    twice, so the second component is ignored by its caller). -/
def fyStep (st : (List ℕ × List ℕ) × ℤ) (i : ℕ) : (List ℕ × List ℕ) × ℤ :=
  let u := urand 0 (1 + (i : ℚ)) st.2
  let j := (Int.floor u.1).toNat
  ((swapL st.1.1 i j, swapL st.1.2 i j), u.2)

/-- The descending loop for (i = num - 1; i > 0; i--) of batch_shuffle:
    fyDown n processes indices n, n-1, ..., 1. -/
def fyDown : ℕ → (List ℕ × List ℕ) × ℤ → (List ℕ × List ℕ) × ℤ
  | 0, st => st
  | i + 1, st => fyDown i (fyStep st (i + 1))

/-- The three outer passes (k = 0..2) of batch_shuffle over indices
    num-1 .. 1. -/
def fyPass3 (num : ℕ) (st : (List ℕ × List ℕ) × ℤ) :
    (List ℕ × List ℕ) × ℤ :=
  fyDown (num - 1) (fyDown (num - 1) (fyDown (num - 1) st))

/-- Embedding of batch_shuffle (src/data/batch.c): reset both cursors to 0;
    if the shuffle flag is clear return at once; otherwise permute the
    sequence arrays (seqs mode) or the row-index array (flat mode) with
    three Fisher-Yates passes driven by the process-wide generator, whose
    state is threaded explicitly. -/
def batch_shuffle (cfg : BatchCfg) (it : BatchIt) (s : ℤ) : BatchIt × ℤ :=
  match it with
  | .seqs st lens _ _ =>
    if cfg.shuffle then
      let r := fyPass3 cfg.num ((st, lens), s)
      (.seqs r.1.1 r.1.2 0 0, r.2)
    else (.seqs st lens 0 0, s)
  | .flat vec _ =>
    if cfg.shuffle then
      let r := fyPass3 cfg.num ((vec, vec), s)
      (.flat r.1.1 0, r.2)
    else (.flat vec 0, s)
  | .plain _ => (.plain 0, s)

/-- The iterator state reached after n batch_copy calls. -/
def batchNth (cfg : BatchCfg) (it : BatchIt) : ℕ → BatchIt
  | 0 => it
  | n + 1 => (batch_copy cfg (batchNth cfg it n)).2

/-- The count returned by the (n+1)-st batch_copy call. -/
def batchCounts (cfg : BatchCfg) (it : BatchIt) (n : ℕ) : ℕ :=
  (batch_copy cfg (batchNth cfg it n)).1

/-- Total number of samples in the dataset behind an iterator: the sum of
    the sequence lengths in seqs mode, num rows otherwise. -/
def datasetTotal (cfg : BatchCfg) : BatchIt → ℕ
  | .seqs _ lens _ _ => lens.sum
  | .flat _ _ => cfg.num
  | .plain _ => cfg.num

/-- Formalization of claim C7's iteration property for one iterator state:
    there is a cut K such that every one of the first K batch_copy calls
    returns a nonzero count, every call from the K-th on returns 0, and the
    first K counts sum to the stated total. -/
def BatchClaim (cfg : BatchCfg) (it : BatchIt) (total : ℕ) : Prop :=
  ∃ K, (∀ k < K, batchCounts cfg it k ≠ 0) ∧
       (∀ k, K ≤ k → batchCounts cfg it k = 0) ∧
       (∑ k in Finset.range K, batchCounts cfg it k) = total

/-- Invariant carried through the Fisher-Yates passes of batch_shuffle:
    the swapped length list keeps its length, its sum and its elementwise
    lower bound 1, and the generator state stays inside the Lehmer
    generator's range [1, 2147483646]. -/
def ShufGood (len0 tot : ℕ) (st : (List ℕ × List ℕ) × ℤ) : Prop :=
  st.1.2.length = len0 ∧ st.1.2.sum = tot ∧ (∀ x ∈ st.1.2, 1 ≤ x) ∧
  1 ≤ st.2 ∧ st.2 < 2147483647

/-- A deterministic model run that consumes randomness the way the training
    pipeline does (claim C9): seed the process-wide generator with
    init_lrng, shuffle the batch iterator, then draw a list of
    urand(-0.5, 0.5) weight-initialization values (embedding_init,
    src/model/embedding.c), threading the single generator state through
    every operation. -/
def weightInitDraws : ℕ → ℤ → List ℚ × ℤ
  | 0, s => ([], s)
  | n + 1, s =>
    let u := urand (-(1/2)) (1/2) s
    let rest := weightInitDraws n u.2
    (u.1 :: rest.1, rest.2)

/-- The pipeline of claim C9 as one function of the seed and the inputs. -/
def pipelineRun (seed : ℤ) (cfg : BatchCfg) (it : BatchIt) (nW : ℕ) :
    (BatchIt × List ℚ × ℤ) :=
  let s0 := initLrng seed
  let r1 := batch_shuffle cfg it s0
  let r2 := weightInitDraws nW r1.2
  (r1.1, r2.1, r2.2)

/- ===================== stats/editdist.c ===================== -/

/-- Inner loop body of edit_dist (src/stats/editdist.c): walk the predicted
    sequence p in lockstep with the previous DP row v0 (v0j is v0[j], the
    tail of v0 starts at v0[j+1]) carrying the value v1[j] just written;
    emits the values v1[j+1], ... of the new row. -/
def levRowAux (ti : ℕ) : List ℕ → List ℕ → ℕ → List ℕ
  | [], _, _ => []
  | _ :: _, [], _ => []
  | pj :: p1, v0j :: v0rest, v1j =>
    let v0j1 := v0rest.headD 0
    let del := v0j1 + 1
    let ins := v1j + 1
    let sub := if pj = ti then v0j else v0j + 1
    let v1j1 := min (min del ins) sub
    v1j1 :: levRowAux ti p1 v0rest v1j1

/-- Embedding of edit_dist (src/stats/editdist.c): Levenshtein distance by
    the two-row dynamic program.  v0 starts as [0..n]; for each true token
    t[i] the new row starts with i+1 and is filled by levRowAux; the answer
    is the last entry of the final row.  The early returns for an empty
    sequence are kept. -/
def edit_dist (p t : List ℕ) : ℕ :=
  let n := p.length
  if n = 0 then t.length
  else if t.length = 0 then n
  else
    let final := t.foldl
      (fun (acc : List ℕ × ℕ) ti =>
        ((acc.2 + 1) :: levRowAux ti p acc.1 (acc.2 + 1), acc.2 + 1))
      (List.range (n + 1), 0)
    final.1.getD n 0

/- ===================== numeric/ctc.c ===================== -/

noncomputable section

/-- Embedding of the inner-row maximization of onehot_decode
    (src/numeric/onehot.h): starting from mj = 0, the loop visits columns
    j = 1 .. L-1 and replaces mj when a strictly larger entry appears. -/
def argmaxRow (L : ℕ) (row : ℕ → ℝ) : ℕ :=
  (List.range (L - 1)).foldl
    (fun mj j1 => if row mj < row (j1 + 1) then j1 + 1 else mj) 0

/-- Embedding of onehot_decode over the T rows of an array. -/
def decodeLabels (yv : ℕ → ℕ → ℝ) (T L : ℕ) : List ℕ :=
  (List.range T).map (fun t => argmaxRow L (yv t))

/-- Helper for the duplicate merge of ctc_loss: prev is the label most
    recently kept (ypc[j] in the source); each further element is kept
    exactly when it differs from it. -/
def mergeAux (prev : ℕ) : List ℕ → List ℕ
  | [] => []
  | b :: r => if prev = b then mergeAux prev r else b :: mergeAux b r

/-- Embedding of the in-place merge of consecutive identical labels in
    ctc_loss (src/numeric/ctc.c lines 108-110): keep the first element of
    every run. -/
def mergeDups : List ℕ → List ℕ
  | [] => []
  | a :: r => a :: mergeAux a r

/-- Embedding of the blank-removal compaction of ctc_loss
    (src/numeric/ctc.c lines 111-113). -/
def stripBlanks (blank : ℕ) (l : List ℕ) : List ℕ := l.filter (· ≠ blank)

/-- Embedding of the padded-label construction of ctc_loss (lines 126-131):
    label[0] = blank, then for each true label (while s < 2T+1, which allows
    exactly the first T of them) the label followed by a blank.  The list
    length is the S stored in the context. -/
def padLabel (blank T : ℕ) (ytc : List ℕ) : List ℕ :=
  blank :: ((ytc.take T).map (fun c => [c, blank])).flatten

/-- Embedding of logsumexp (src/numeric/ctc.c lines 54-59) on log-domain
    values where ⊥ stands for the float -INFINITY: if either argument is
    -infinity return the other, else the Equation 7.18 formula anchored at
    the larger argument. -/
def lseB (a b : WithBot ℝ) : WithBot ℝ :=
  a.recBotCoe b (fun x =>
    b.recBotCoe (↑x) (fun y =>
      (↑(if y ≤ x then x + Real.log (1 + Real.exp (y - x))
         else y + Real.log (1 + Real.exp (x - y))) : WithBot ℝ)))

/-- exp extended to log-domain values: exp(-infinity) = 0. -/
def expB : WithBot ℝ → ℝ := fun a => a.recBotCoe 0 Real.exp

/-- Negation carrying -infinity to +infinity (the float loss accumulation
    loss += -prob[t] of ctc_loss). -/
def negTop : WithBot ℝ → WithTop ℝ := fun a => a.recBotCoe ⊤ (fun x => ↑(-x))

/-- Division of a possibly infinite loss by the timestep count
    (return loss / T of ctc_loss; infinity / T stays infinity). -/
def divTop (x : WithTop ℝ) (T : ℕ) : WithTop ℝ := x.map (fun r => r / T)

/-- Spec-side n-ary log-sum-exp over a list of log-domain values: -infinity
    when every element is -infinity, otherwise the log of the sum of the
    exponentials. -/
def logSumExpList (l : List (WithBot ℝ)) : WithBot ℝ :=
  if ∀ x ∈ l, x = ⊥ then ⊥ else ↑(Real.log ((l.map expB).sum))

/-- Spec-side log-sum-exp over positions s < S of a table row. -/
def logSumExpAll (S : ℕ) (f : ℕ → WithBot ℝ) : WithBot ℝ :=
  logSumExpList ((List.range S).map f)

/-- Embedding of the alpha (forward) table of ctc_loss (lines 144-168),
    parametrized by the stored log probabilities lp, the padded label lab,
    the blank index, the timestep count T and the padded length S.
    Row 0: Equations 7.5-7.7, with the source's extra write of
    yp[0][blank] into position 1 when S = 1 (that cell lies outside the
    T x S table and is never read back for s < S).  Row t >= 1: cells
    outside [start, end) are -infinity (Equation 7.9 and the untouched
    -infinity initialization), cells inside accumulate the logsumexp chain
    alpha[t-1][s], alpha[t-1][s-1] (when s >= 1), alpha[t-1][s-2] (when
    s >= 2 and label[s] is neither blank nor equal to label[s-2]), plus
    yp[t][label[s]]. -/
def alphaT (lp : ℕ → ℕ → ℝ) (lab : ℕ → ℕ) (blank T S : ℕ) :
    ℕ → ℕ → WithBot ℝ
  | 0, s =>
    if s = 0 then ↑(lp 0 blank)
    else if s = 1 then (if 1 < S then ↑(lp 0 (lab 1)) else ↑(lp 0 blank))
    else ⊥
  | t + 1, s =>
    let start := S - 2 * (T - (t + 1))
    let e := min (2 * (t + 1 + 1)) S
    if s < start ∨ e ≤ s then ⊥
    else
      let a0 := alphaT lp lab blank T S t s
      let a1 := if 1 ≤ s then lseB a0 (alphaT lp lab blank T S t (s - 1)) else a0
      let a2 := if 2 ≤ s ∧ ¬(lab s = blank ∨ lab (s - 2) = lab s)
                then lseB a1 (alphaT lp lab blank T S t (s - 2)) else a1
      a2 + ↑(lp (t + 1) (lab s))

/-- Embedding of the beta (backward) table of ctc_loss (lines 170-192),
    indexed from the last row: betaAux k is row t = T-1-k.  Row T-1:
    positions S-1 and (when S > 1) S-2 hold 0, the rest -infinity
    (Equations 7.12-7.14).  Earlier rows: cells at or beyond end are
    -infinity (Equation 7.16), cells below start keep their -infinity
    initialization, cells inside accumulate the chain of
    beta[t+1][s+d] + yp[t+1][label[s+d]] for d = 0, 1 (when s+1 < S) and 2
    (when s+2 < S and label[s] is neither blank nor equal to label[s+2]). -/
def betaAux (lp : ℕ → ℕ → ℝ) (lab : ℕ → ℕ) (blank T S : ℕ) :
    ℕ → ℕ → WithBot ℝ
  | 0, s =>
    if s + 1 = S ∨ (1 < S ∧ s + 2 = S) then ↑(0 : ℝ) else ⊥
  | k + 1, s =>
    let t := T - 1 - (k + 1)
    let start := S - 2 * (T - t)
    let e := min (2 * (t + 1)) S
    if e ≤ s ∨ s < start then ⊥
    else
      let prev := betaAux lp lab blank T S k
      let b0 := prev s + ↑(lp (t + 1) (lab s))
      let b1 := if s + 1 < S
                then lseB b0 (prev (s + 1) + ↑(lp (t + 1) (lab (s + 1))))
                else b0
      let b2 := if s + 2 < S ∧ ¬(lab s = blank ∨ lab (s + 2) = lab s)
                then lseB b1 (prev (s + 2) + ↑(lp (t + 1) (lab (s + 2))))
                else b1
      b2

/-- Row t of the beta table. -/
def betaT (lp : ℕ → ℕ → ℝ) (lab : ℕ → ℕ) (blank T S : ℕ) (t s : ℕ) :
    WithBot ℝ :=
  betaAux lp lab blank T S (T - 1 - t) s

/-- The CTC context (struct ctc_s of src/numeric/ctc.h) after a loss call:
    the blank index fixed at creation, the stored log-scale predictions,
    the decoded-and-compacted predicted and true label sequences (whose
    lengths are ypclen and ytclen), the padded label of length S, and the
    alpha, beta and per-timestep probability tables. -/
structure CTCState where
  blank : ℕ
  ypc : List ℕ
  ytc : List ℕ
  label : List ℕ
  lyp : ℕ → ℕ → ℝ
  alpha : ℕ → ℕ → WithBot ℝ
  beta : ℕ → ℕ → WithBot ℝ
  prob : ℕ → WithBot ℝ

/-- Embedding of ctc_create (src/numeric/ctc.c): records the blank index;
    the freshly allocated tables carry no meaningful values and are
    modelled by default contents. -/
def ctcCreate (blank : ℕ) : CTCState :=
  { blank := blank, ypc := [], ytc := [], label := []
    lyp := fun _ _ => 0, alpha := fun _ _ => ⊥, beta := fun _ _ => ⊥
    prob := fun _ => ⊥ }

/-- Embedding of ctc_loss (src/numeric/ctc.c).  With T = 0 it returns
    INFINITY at once, before touching any stored table.  Otherwise it
    stores log yp, decodes and compacts the predicted and true labels,
    builds the padded label, fills the alpha and beta tables, folds
    alpha[t][s] + beta[t][s] over s with logsumexp into prob[t], and
    returns the sum over t of -prob[t], divided by T, with the updated
    context. -/
def ctc_loss (st : CTCState) (yp yt : ℕ → ℕ → ℝ) (T L : ℕ) :
    WithTop ℝ × CTCState :=
  if T = 0 then (⊤, st)
  else
    let lp : ℕ → ℕ → ℝ := fun t l => Real.log (yp t l)
    let ypc := stripBlanks st.blank (mergeDups (decodeLabels yp T L))
    let ytc := stripBlanks st.blank (mergeDups (decodeLabels yt T L))
    let lab := padLabel st.blank T ytc
    let S := lab.length
    let labF := fun s => lab.getD s st.blank
    let A := alphaT lp labF st.blank T S
    let Bt := betaT lp labF st.blank T S
    let prob := fun t =>
      (List.range S).foldl (fun p s => lseB p (A t s + Bt t s)) ⊥
    let loss := divTop (∑ t in Finset.range T, negTop (prob t)) T
    (loss,
     { blank := st.blank, ypc := ypc, ytc := ytc, label := lab
       lyp := lp, alpha := A, beta := Bt, prob := prob })

/-- Embedding of ctc_accuracy (src/numeric/ctc.c): fact is the larger of
    the stored predicted/true label counts; when it is zero the function
    returns T at once, otherwise T * (1 - editDistance / fact). -/
def ctc_accuracy (st : CTCState) (T : ℕ) : ℝ :=
  let fact := max st.ypc.length st.ytc.length
  if fact = 0 then (T : ℝ)
  else (1 - (edit_dist st.ypc st.ytc : ℝ) / (fact : ℝ)) * T

/-- Formalization of claim C1's characterization of the alpha table:
    boundary values at t = 0, and for 1 <= t < T the in-range recurrence
    (n-ary logsumexp of the allowed predecessors plus the log probability
    of the position's label) with everything outside the reachable range
    pruned to -infinity. -/
def CTCAlphaSpec (lp : ℕ → ℕ → ℝ) (lab : ℕ → ℕ) (blank T S : ℕ)
    (A : ℕ → ℕ → WithBot ℝ) : Prop :=
  A 0 0 = ↑(lp 0 blank)
  ∧ (1 < S → A 0 1 = ↑(lp 0 (lab 1)))
  ∧ (∀ s, 2 ≤ s → s < S → A 0 s = ⊥)
  ∧ (∀ t s, 1 ≤ t → t < T → s < S →
      (S - 2 * (T - t) ≤ s → s < min (2 * (t + 1)) S →
        A t s = logSumExpList
          ([A (t - 1) s]
            ++ (if 1 ≤ s then [A (t - 1) (s - 1)] else [])
            ++ (if 2 ≤ s ∧ lab s ≠ blank ∧ lab (s - 2) ≠ lab s
                then [A (t - 1) (s - 2)] else []))
          + ↑(lp t (lab s)))
      ∧ (s < S - 2 * (T - t) ∨ min (2 * (t + 1)) S ≤ s → A t s = ⊥))

end

/- ============================================================ -/
/- Theorems                                                     -/
/- ============================================================ -/

/-- Splitting an LSTM run: the run on the shifted input from the state
    reached after m steps equals the single run of m + n steps. -/
theorem lstmRun_append (l : LSTMP) (x : ℕ → ℕ → ℝ)
    (hc : (ℕ → ℝ) × (ℕ → ℝ)) :
    ∀ n m, lstmRun l (fun t => x (m + t)) (lstmRun l x hc m) n
      = lstmRun l x hc (m + n) := by
  intro n
  induction n with
  | zero => intro m; rfl
  | succ n ih =>
    intro m
    show lstmCell l (x (m + n)) (lstmRun l (fun t => x (m + t)) (lstmRun l x hc m) n)
        = lstmRun l x hc (m + (n + 1))
    rw [ih m]
    show lstmCell l (x (m + n)) (lstmRun l x hc (m + n)) = lstmRun l x hc (m + (n + 1))
    have : m + (n + 1) = (m + n) + 1 := by omega
    rw [this]
    rfl

/-- Claim C2: for a stateful LSTM layer whose carry (ph, pc) has just been
    reset to zero, running lstm_forward on the first B rows and then on the
    last B rows of a 2B-row input leaves the same carried hidden and cell
    state as one lstm_forward over all 2B rows: the carry written at the
    end of a batch is the (h, c) pair after its rows, so the two-batch
    composition equals the single 2B-step run. -/
theorem lstm_stateful_two_batches (l : LSTMP) (x : ℕ → ℕ → ℝ) (B : ℕ) :
    lstmRun l (fun t => x (B + t)) (lstmRun l x lstmResetCarry B) B
      = lstmRun l x lstmResetCarry (2 * B) := by
  rw [lstmRun_append l x lstmResetCarry B B]
  congr 1
  omega

/-- Claim C3: dense_backward writes the weight gradient X.T @ dy, and when
    the input-gradient buffer is supplied it writes
    (dy @ Wx.T) * (activation derivative at the already-activated values
    stored in X): z*(1-z) for sigmoid, the indicator of z > 0 for ReLU,
    and no factor for softmax or none. -/
theorem dense_backward_spec (a : Char) (Wx dy X : ℕ → ℕ → ℝ) (B S : ℕ) :
    (dense_backward a Wx dy X B S true).1 = matProdF (transposeF X) dy B
    ∧ (dense_backward a Wx dy X B S false).1 = matProdF (transposeF X) dy B
    ∧ (dense_backward a Wx dy X B S false).2 = none
    ∧ (dense_backward a Wx dy X B S true).2 =
        some (fun i j => matProdF dy (transposeF Wx) S i j
                          * dActFactor a (X i j)) := by
  refine ⟨rfl, rfl, rfl, ?_⟩
  · show some _ = some _
    congr 1
    funext i j
    by_cases hs : a = 's'
    · subst hs
      simp [dActFactor, d_sigmoid_1, matProdF, transposeF]
    · by_cases hr : a = 'r'
      · subst hr
        simp [dActFactor, d_relu_1, matProdF, transposeF]
      · simp [hs, hr, dActFactor, matProdF, transposeF]

/-- Claim C6: one adamw_update step on an element with nonnegative second
    moment and step count k >= 1 first clips the gradient into
    [1.0e-12, 10], then replaces m by 0.9*m + 0.1*g and v by
    0.999*v + 0.001*g*g, and replaces w by
    w - lr*(mhat/(sqrt(vhat) + epsilon) + weightDecay*w) with
    mhat = m/(1-0.9^k), vhat = v/(1-0.999^k), epsilon = 1.0e-7. -/
theorem adamw_update_step (w g m v lr wd : ℝ) (k : ℕ)
    (hk : 1 ≤ k) (hv : 0 ≤ v) :
    adamwUpdateElem w g m v lr wd k =
      some (w - lr * (((0.9 * m + 0.1 * clip1 1.0e-12 10 g) / (1 - 0.9 ^ k))
                / (Real.sqrt ((0.999 * v + 0.001 * clip1 1.0e-12 10 g
                    * clip1 1.0e-12 10 g) / (1 - 0.999 ^ k)) + 1.0e-7)
             + wd * w),
            0.9 * m + 0.1 * clip1 1.0e-12 10 g,
            0.999 * v + 0.001 * clip1 1.0e-12 10 g * clip1 1.0e-12 10 g) := by
  unfold adamwUpdateElem adamwElem
  rw [if_neg (not_lt.mpr hv)]
  norm_num

/-- Witness for adamw_update_step at w = g = m = v = lr = wd = 0, k = 1. -/
theorem adamw_update_step_witness :
    (0 : ℝ) ≤ 0 ∧
    adamwUpdateElem 0 0 0 0 0 0 1 =
      some (0 - 0 * (((0.9 * 0 + 0.1 * clip1 1.0e-12 10 0) / (1 - 0.9 ^ 1))
                / (Real.sqrt ((0.999 * 0 + 0.001 * clip1 1.0e-12 10 0
                    * clip1 1.0e-12 10 0) / (1 - 0.999 ^ 1)) + 1.0e-7)
             + 0 * 0),
            0.9 * 0 + 0.1 * clip1 1.0e-12 10 0,
            0.999 * 0 + 0.001 * clip1 1.0e-12 10 0 * clip1 1.0e-12 10 0) :=
  ⟨le_refl 0, adamw_update_step 0 0 0 0 0 0 1 (le_refl 1) (le_refl 0)⟩

/-- Claim C8: ctc_loss with T = 0 timesteps returns INFINITY immediately
    (modelled by ⊤) and leaves every stored table of the CTC context
    unchanged. -/
theorem ctc_loss_zero_timesteps (st : CTCState) (yp yt : ℕ → ℕ → ℝ)
    (L : ℕ) : ctc_loss st yp yt 0 L = (⊤, st) := rfl

/-- Claim C9: the pipeline that seeds the process-wide generator with
    init_lrng and then performs every randomness-consuming operation
    (batch shuffling, weight-initialization draws) by explicit threading of
    the single generator state is a deterministic function of the seed and
    the inputs: two runs with equal seeds and equal inputs produce equal
    outputs. -/
theorem pipeline_deterministic (s1 s2 : ℤ) (c1 c2 : BatchCfg)
    (i1 i2 : BatchIt) (n1 n2 : ℕ)
    (hs : s1 = s2) (hc : c1 = c2) (hi : i1 = i2) (hn : n1 = n2) :
    pipelineRun s1 c1 i1 n1 = pipelineRun s2 c2 i2 n2 := by
  subst hs hc hi hn
  rfl

/-- Witness for pipeline_deterministic at seed 7, a flat iterator of three
    rows, and two weight draws. -/
theorem pipeline_deterministic_witness :
    pipelineRun 7 ⟨2, 3, true⟩ (BatchIt.flat [0, 1, 2] 0) 2
      = pipelineRun 7 ⟨2, 3, true⟩ (BatchIt.flat [0, 1, 2] 0) 2 :=
  pipeline_deterministic 7 7 ⟨2, 3, true⟩ ⟨2, 3, true⟩
    (BatchIt.flat [0, 1, 2] 0) (BatchIt.flat [0, 1, 2] 0) 2 2
    rfl rfl rfl rfl

/-- Counterexample to claim C5 as stated: at input element 0 (bounds
    gMin = 1, gMax = 2) clip_gradients produces -1, whose sign does not
    match the zero input, so the sign clause fails for zero elements. -/
theorem clip_zero_sign_counterexample :
    clip_gradients 1 2 [[0]] = [[-1]] ∧ ¬ ClipClaim := by
  have hval : clip_gradients 1 2 [[0]] = [[-1]] := by
    norm_num [clip_gradients, clip1]
  refine ⟨hval, fun h => ?_⟩
  have h0 := (h [[0]] 1 2 (by norm_num) (by norm_num) 0 0
      (by simp) (by simp)).2.2.2.2
  have hz : ((clip_gradients 1 2 [[0]]).getD 0 []).getD 0 0 = 0 := h0 (by simp)
  rw [hval] at hz
  norm_num at hz

/-- Claim C5 amended: for bounds 0 < gMin <= gMax, clip_gradients maps each
    element through clip1; every output element's absolute value lies in
    [gMin, gMax]; the sign matches the input's sign for every nonzero
    input element; an input element equal to zero yields -gMin. -/
theorem clip_gradients_spec (ga : List (List ℝ)) (gmin gmax g : ℝ) (i j : ℕ)
    (h0 : 0 < gmin) (h1 : gmin ≤ gmax)
    (hi : i < ga.length) (hj : j < (ga.getD i []).length)
    (hg : (ga.getD i []).getD j 0 = g) :
    ((clip_gradients gmin gmax ga).getD i []).getD j 0 = clip1 gmin gmax g
    ∧ gmin ≤ |clip1 gmin gmax g| ∧ |clip1 gmin gmax g| ≤ gmax
    ∧ (0 < g → 0 < clip1 gmin gmax g)
    ∧ (g < 0 → clip1 gmin gmax g < 0)
    ∧ (g = 0 → clip1 gmin gmax g = -gmin) := by
  have hmap : ((clip_gradients gmin gmax ga).getD i []).getD j 0
      = clip1 gmin gmax g := by
    unfold clip_gradients
    have hi2 : i < (ga.map (fun row => row.map (clip1 gmin gmax))).length := by
      simpa using hi
    rw [List.getD_eq_getElem _ _ hi2, List.getElem_map]
    have hj2 : j < (ga[i].map (clip1 gmin gmax)).length := by
      rw [List.length_map]
      rw [List.getD_eq_getElem _ _ hi] at hj
      exact hj
    rw [List.getD_eq_getElem _ _ hj2, List.getElem_map]
    rw [List.getD_eq_getElem _ _ hi] at hg
    rw [List.getD_eq_getElem _ _ (by rw [List.getD_eq_getElem _ _ hi] at hj; exact hj)] at hg
    rw [hg]
  refine ⟨hmap, ?_⟩
  have hgmax : 0 < gmax := lt_of_lt_of_le h0 h1
  unfold clip1
  by_cases hb : |g| > gmax
  · rw [if_pos hb]
    by_cases hp : g > 0
    · rw [if_pos hp]
      refine ⟨by rw [abs_of_pos hgmax]; exact h1, by rw [abs_of_pos hgmax],
              fun _ => hgmax, fun hn => by linarith, fun hz => ?_⟩
      rw [hz] at hp
      exact absurd hp (lt_irrefl 0)
    · rw [if_neg hp]
      refine ⟨by rw [abs_neg, abs_of_pos hgmax]; exact h1,
              by rw [abs_neg, abs_of_pos hgmax],
              fun hpp => absurd hpp hp, fun _ => by linarith, fun hz => ?_⟩
      exfalso
      rw [hz] at hb
      simp only [abs_zero] at hb
      linarith
  · rw [if_neg hb]
    by_cases hsm : |g| < gmin
    · rw [if_pos hsm]
      by_cases hp : g > 0
      · rw [if_pos hp]
        refine ⟨by rw [abs_of_pos h0], by rw [abs_of_pos h0]; exact h1,
                fun _ => h0, fun hn => by linarith, fun hz => ?_⟩
        rw [hz] at hp
        exact absurd hp (lt_irrefl 0)
      · rw [if_neg hp]
        refine ⟨by rw [abs_neg, abs_of_pos h0], by rw [abs_neg, abs_of_pos h0]; exact h1,
                fun hpp => absurd hpp hp, fun _ => by linarith, fun _ => rfl⟩
    · rw [if_neg hsm]
      refine ⟨not_lt.mp hsm, not_lt.mp hb, fun hpp => hpp, fun hn => hn, fun hz => ?_⟩
      exfalso
      rw [hz] at hsm
      simp only [abs_zero] at hsm
      exact hsm h0

/-- Witness for clip_gradients_spec at ga = [[0]], gMin = 1, gMax = 2. -/
theorem clip_gradients_spec_witness :
    (0 : ℝ) < 1 ∧ (1 : ℝ) ≤ 2 ∧
    (((clip_gradients 1 2 [[0]]).getD 0 []).getD 0 0 = clip1 1 2 0
     ∧ (1 : ℝ) ≤ |clip1 1 2 0| ∧ |clip1 1 2 0| ≤ 2
     ∧ (0 < (0 : ℝ) → 0 < clip1 1 2 0)
     ∧ ((0 : ℝ) < 0 → clip1 1 2 0 < 0)
     ∧ ((0 : ℝ) = 0 → clip1 1 2 0 = -1)) :=
  ⟨by norm_num, by norm_num,
   clip_gradients_spec [[0]] 1 2 0 0 0 (by norm_num) (by norm_num)
     (by simp) (by simp) (by simp)⟩

/-- Claim C4, evaluated at the failing input: one sample (i = 0), one
    context position (M = 1), embedding dimension E = 2, token 1 selected,
    pad index -1, embedding row 1 = (1, 2).  The code's forward yields the
    vector (3, 0) — each output column j < M holds the sum of ALL
    components of the row selected by context position j — while the
    documented sum-of-rows forward yields (1, 2). -/
theorem embedding_forward_bug :
    embedding_forward 1 2 (fun d k => if d = 1 then ((k : ℝ) + 1) else 0)
        (fun _ _ => 1) 0 0 = 3
    ∧ embedding_forward 1 2 (fun d k => if d = 1 then ((k : ℝ) + 1) else 0)
        (fun _ _ => 1) 0 1 = 0
    ∧ embeddingForwardSpec 1 (-1) (fun d k => if d = 1 then ((k : ℝ) + 1) else 0)
        (fun _ _ => 1) 0 0 = 1
    ∧ embeddingForwardSpec 1 (-1) (fun d k => if d = 1 then ((k : ℝ) + 1) else 0)
        (fun _ _ => 1) 0 1 = 2 := by
  refine ⟨?_, ?_, ?_, ?_⟩
  · simp [embedding_forward, Finset.sum_range_succ]
    norm_num
  · simp [embedding_forward]
  · simp [embeddingForwardSpec, Finset.sum_filter, Finset.sum_range_succ]
  · simp [embeddingForwardSpec, Finset.sum_filter, Finset.sum_range_succ]
    norm_num

/-- Claim C10: when the label sequences recorded by ctc_loss (decoded,
    duplicate-merged, blank-stripped) are both empty, ctc_accuracy returns
    exactly T through its early return, with no edit distance computed and
    no division by the zero maximum length. -/
theorem ctc_accuracy_empty (st0 : CTCState) (yp yt : ℕ → ℕ → ℝ) (T L : ℕ)
    (hp : ((ctc_loss st0 yp yt T L).2).ypc.length = 0)
    (ht : ((ctc_loss st0 yp yt T L).2).ytc.length = 0) :
    ctc_accuracy ((ctc_loss st0 yp yt T L).2) T = (T : ℝ) := by
  unfold ctc_accuracy
  rw [hp, ht]
  simp

/-- Witness for ctc_accuracy_empty: T = 1, L = 1, blank 0, constant inputs,
    whose decoded sequences are a single blank and strip to empty. -/
theorem ctc_accuracy_empty_witness :
    ((ctc_loss (ctcCreate 0) (fun _ _ => 1) (fun _ _ => 1) 1 1).2).ypc.length = 0
    ∧ ((ctc_loss (ctcCreate 0) (fun _ _ => 1) (fun _ _ => 1) 1 1).2).ytc.length = 0
    ∧ ctc_accuracy ((ctc_loss (ctcCreate 0) (fun _ _ => 1) (fun _ _ => 1) 1 1).2) 1
        = ((1 : ℕ) : ℝ) := by
  have hp : ((ctc_loss (ctcCreate 0) (fun _ _ => 1) (fun _ _ => 1) 1 1).2).ypc.length = 0 := rfl
  have ht : ((ctc_loss (ctcCreate 0) (fun _ _ => 1) (fun _ _ => 1) 1 1).2).ytc.length = 0 := rfl
  exact ⟨hp, ht, ctc_accuracy_empty (ctcCreate 0) (fun _ _ => 1) (fun _ _ => 1) 1 1 hp ht⟩

/-- The Lehmer step by Schrage's method stays inside [1, modulus-1]:
    t is congruent to 48271*s modulo 2147483647, bounded strictly between
    -modulus and modulus, and nonzero because 48271 is invertible modulo
    2147483647, so both branches of the sign fix-up land in range. -/
theorem lrngStep_bounds (s : ℤ) (h1 : 1 ≤ s) (h2 : s < 2147483647) :
    1 ≤ lrngStep s ∧ lrngStep s < 2147483647 := by
  have hq : (2147483647 : ℤ) / 48271 = 44488 := by decide
  have hr : (2147483647 : ℤ) % 48271 = 3399 := by decide
  simp only [lrngStep, hq, hr]
  have hmod1 : 0 ≤ s % 44488 := Int.emod_nonneg s (by norm_num)
  have hmod2 : s % 44488 < 44488 := Int.emod_lt_of_pos s (by norm_num)
  have hdiv1 : 0 ≤ s / 44488 := Int.ediv_nonneg (by linarith) (by norm_num)
  have hdiv2 : s / 44488 ≤ 48271 := by
    have hs : s ≤ 2147483646 := by linarith
    have := Int.ediv_le_ediv (by norm_num : (0:ℤ) < 44488) hs
    have he : (2147483646 : ℤ) / 44488 = 48271 := by decide
    rw [he] at this
    exact this
  have hteq : 48271 * (s % 44488) - 3399 * (s / 44488)
      = 48271 * s - 2147483647 * (s / 44488) := by
    have hsp := Int.emod_add_ediv s 44488
    have : s % 44488 = s - 44488 * (s / 44488) := by linarith
    rw [this]
    ring
  have htlt : 48271 * (s % 44488) - 3399 * (s / 44488) < 2147483647 := by
    have a1 : 48271 * (s % 44488) ≤ 48271 * 44487 := by
      have : s % 44488 ≤ 44487 := by linarith
      nlinarith
    have a2 : 0 ≤ 3399 * (s / 44488) := by positivity
    linarith
  have htgt : -2147483647 < 48271 * (s % 44488) - 3399 * (s / 44488) := by
    have a1 : 0 ≤ 48271 * (s % 44488) := by positivity
    have a2 : 3399 * (s / 44488) ≤ 3399 * 48271 := by nlinarith
    linarith
  have htne : 48271 * (s % 44488) - 3399 * (s / 44488) ≠ 0 := by
    intro h0
    have hc : 48271 * s = 2147483647 * (s / 44488) := by linarith [hteq]
    have hs_eq : s = 2147483647 * (1899818559 * (s / 44488) - 42704 * s) := by
      linear_combination 1899818559 * hc
    have hdvd : (2147483647 : ℤ) ∣ s := ⟨_, hs_eq⟩
    have := Int.le_of_dvd (by linarith) hdvd
    linarith
  by_cases ht : 48271 * (s % 44488) - 3399 * (s / 44488) > 0
  · rw [if_pos ht]
    exact ⟨ht, htlt⟩
  · rw [if_neg ht]
    have : 48271 * (s % 44488) - 3399 * (s / 44488) < 0 :=
      lt_of_le_of_ne (not_lt.mp ht) htne
    constructor <;> linarith

/-- Setting an element adds the new value and removes the old one from a
    ℕ-list sum, stated additively to stay inside ℕ. -/
theorem sum_set_add (l : List ℕ) :
    ∀ (n a : ℕ), n < l.length → (l.set n a).sum + l.getD n 0 = l.sum + a := by
  induction l with
  | nil => intro n a h; simp at h
  | cons x t ih =>
    intro n a h
    cases n with
    | zero => simp [List.set, List.getD]; omega
    | succ n =>
      have hn : n < t.length := by simpa using h
      have := ih n a hn
      simp only [List.set, List.sum_cons, List.getD_cons_succ]
      omega

/-- The three-assignment swap preserves the length. -/
theorem length_swapL (l : List ℕ) (i j : ℕ) :
    (swapL l i j).length = l.length := by
  simp [swapL]

/-- The three-assignment swap with both indices in range preserves the sum. -/
theorem sum_swapL (l : List ℕ) (i j : ℕ) (hi : i < l.length)
    (hj : j < l.length) : (swapL l i j).sum = l.sum := by
  unfold swapL
  have hj1 : j < (l.set i (l.getD j 0)).length := by simpa using hj
  have h2 := sum_set_add (l.set i (l.getD j 0)) j (l.getD i 0) hj1
  have h1 := sum_set_add l i (l.getD j 0) hi
  by_cases hij : i = j
  · subst hij
    have hget : (l.set i (l.getD i 0)).getD i 0 = l.getD i 0 := by
      rw [List.getD_eq_getElem _ _ hj1, List.getElem_set_self]
    rw [hget] at h2
    omega
  · have hget : (l.set i (l.getD j 0)).getD j 0 = l.getD j 0 := by
      rw [List.getD_eq_getElem _ _ hj1, List.getElem_set_ne hij]
      exact (List.getD_eq_getElem _ _ hj).symm
    rw [hget] at h2
    omega

/-- Every element of the swapped list (indices in range) is an element of
    the original list. -/
theorem mem_swapL (l : List ℕ) (i j : ℕ) (hi : i < l.length)
    (hj : j < l.length) : ∀ x ∈ swapL l i j, x ∈ l := by
  intro x hx
  unfold swapL at hx
  rcases List.mem_or_eq_of_mem_set hx with hx1 | hx1
  · rcases List.mem_or_eq_of_mem_set hx1 with hx2 | hx2
    · exact hx2
    · rw [hx2, List.getD_eq_getElem _ _ hj]
      exact List.getElem_mem hj
  · rw [hx1, List.getD_eq_getElem _ _ hi]
    exact List.getElem_mem hi

/-- With the generator in range, the swap partner j = (int) urand(0, 1+i)
    drawn by a Fisher-Yates iteration never exceeds i. -/
theorem urand_floor_le (s : ℤ) (i : ℕ) (h1 : 1 ≤ s) (h2 : s < 2147483647) :
    (Int.floor ((urand 0 (1 + (i : ℚ)) s).1)).toNat ≤ i := by
  obtain ⟨b1, b2⟩ := lrngStep_bounds s h1 h2
  have hv : (urand 0 (1 + (i : ℚ)) s).1
      = ((lrngStep s : ℚ) / 2147483647) * (1 + (i : ℚ)) := by
    simp [urand, lrng]
  have hfrac : (lrngStep s : ℚ) / 2147483647 < 1 := by
    rw [div_lt_one (by norm_num)]
    exact_mod_cast b2
  have hpos : (0 : ℚ) < 1 + (i : ℚ) := by positivity
  have hlt : (urand 0 (1 + (i : ℚ)) s).1 < 1 + (i : ℚ) := by
    rw [hv]
    calc ((lrngStep s : ℚ) / 2147483647) * (1 + (i : ℚ))
        < 1 * (1 + (i : ℚ)) := by
          exact mul_lt_mul_of_pos_right hfrac hpos
      _ = 1 + (i : ℚ) := one_mul _
  have hfl : Int.floor ((urand 0 (1 + (i : ℚ)) s).1) < (i : ℤ) + 1 := by
    rw [Int.floor_lt]
    push_cast
    linarith
  have : Int.floor ((urand 0 (1 + (i : ℚ)) s).1) ≤ (i : ℤ) := by omega
  omega

/-- One Fisher-Yates iteration at an in-range index preserves the shuffle
    invariant. -/
theorem fyStep_good (len0 tot : ℕ) (st : (List ℕ × List ℕ) × ℤ) (i : ℕ)
    (hG : ShufGood len0 tot st) (hi : i < st.1.2.length) :
    ShufGood len0 tot (fyStep st i) := by
  obtain ⟨hl, hs, hm, h1, h2⟩ := hG
  have hj := urand_floor_le st.2 i h1 h2
  have hjlt : (Int.floor ((urand 0 (1 + (i : ℚ)) st.2).1)).toNat
      < st.1.2.length := lt_of_le_of_lt hj hi
  have hseed : (urand 0 (1 + (i : ℚ)) st.2).2 = lrngStep st.2 := by
    simp [urand, lrng]
  obtain ⟨b1, b2⟩ := lrngStep_bounds st.2 h1 h2
  unfold fyStep
  refine ⟨?_, ?_, ?_, ?_, ?_⟩
  · simpa [length_swapL] using hl
  · simpa [sum_swapL st.1.2 i _ hi hjlt] using hs
  · intro x hx
    exact hm x (mem_swapL st.1.2 i _ hi hjlt x hx)
  · simpa [hseed] using b1
  · simpa [hseed] using b2

/-- The descending Fisher-Yates loop from an in-range start preserves the
    shuffle invariant. -/
theorem fyDown_good (len0 tot : ℕ) :
    ∀ (n : ℕ) (st : (List ℕ × List ℕ) × ℤ), ShufGood len0 tot st →
      n < st.1.2.length → ShufGood len0 tot (fyDown n st) := by
  intro n
  induction n with
  | zero => intro st hG _; exact hG
  | succ n ih =>
    intro st hG hn
    have hG1 := fyStep_good len0 tot st (n + 1) hG hn
    have hlen1 : (fyStep st (n + 1)).1.2.length = len0 := hG1.1
    have hlen0 : st.1.2.length = len0 := hG.1
    exact ih (fyStep st (n + 1)) hG1 (by omega)

/-- The three Fisher-Yates passes of batch_shuffle preserve the shuffle
    invariant (len0 is the configured sequence count num). -/
theorem fyPass3_good (num tot : ℕ) (st : (List ℕ × List ℕ) × ℤ)
    (hG : ShufGood num tot st) : ShufGood num tot (fyPass3 num st) := by
  unfold fyPass3
  rcases Nat.eq_zero_or_pos num with h0 | hpos
  · subst h0
    simpa [fyDown] using hG
  · have step : ∀ st2, ShufGood num tot st2 →
        ShufGood num tot (fyDown (num - 1) st2) := by
      intro st2 hG2
      exact fyDown_good num tot (num - 1) st2 hG2 (by rw [hG2.1]; omega)
    exact step _ (step _ (step _ hG))

/-- batch_shuffle on a sequence-grouped iterator resets both cursors and
    yields a length array with the same length, the same total and the same
    elementwise lower bound (identically when the shuffle flag is off,
    through the invariant-preserving Fisher-Yates passes when it is on). -/
theorem batch_shuffle_seqs (cfg : BatchCfg) (starts lens : List ℕ)
    (cs cv : ℕ) (s : ℤ)
    (hlen : lens.length = cfg.num) (hmin : ∀ x ∈ lens, 1 ≤ x)
    (h1 : 1 ≤ s) (h2 : s < 2147483647) :
    ∃ starts2 lens2 s2,
      batch_shuffle cfg (.seqs starts lens cs cv) s
        = (.seqs starts2 lens2 0 0, s2)
      ∧ lens2.length = cfg.num ∧ lens2.sum = lens.sum
      ∧ ∀ x ∈ lens2, 1 ≤ x := by
  by_cases hsh : cfg.shuffle = true
  · have hG : ShufGood cfg.num lens.sum (fyPass3 cfg.num ((starts, lens), s)) :=
      fyPass3_good cfg.num lens.sum ((starts, lens), s) ⟨hlen, rfl, hmin, h1, h2⟩
    simp only [batch_shuffle, hsh, if_true]
    exact ⟨_, _, _, rfl, hG.1, hG.2.1, hG.2.2.1⟩
  · rw [Bool.not_eq_true] at hsh
    simp only [batch_shuffle, hsh, Bool.false_eq_true, if_false]
    exact ⟨starts, lens, s, rfl, hlen, rfl, hmin⟩

/-- Shifting the iterate: the state after k+1 calls starting at it is the
    state after k calls starting at the advanced iterator. -/
theorem batchNth_shift (cfg : BatchCfg) (it : BatchIt) :
    ∀ k, batchNth cfg it (k + 1) = batchNth cfg ((batch_copy cfg it).2) k := by
  intro k
  induction k with
  | zero => rfl
  | succ k ih =>
    show (batch_copy cfg (batchNth cfg it (k + 1))).2 = _
    rw [ih]
    rfl

/-- Count analogue of batchNth_shift. -/
theorem batchCounts_shift (cfg : BatchCfg) (it : BatchIt) (k : ℕ) :
    batchCounts cfg it (k + 1) = batchCounts cfg ((batch_copy cfg it).2) k := by
  unfold batchCounts
  rw [batchNth_shift]

/-- A fixed point of batch_copy returning 0 satisfies the claim with
    total 0: every call returns 0. -/
theorem BatchClaim_zero (cfg : BatchCfg) (it : BatchIt)
    (h0 : batch_copy cfg it = (0, it)) : BatchClaim cfg it 0 := by
  have hall : ∀ k, batchNth cfg it k = it := by
    intro k
    induction k with
    | zero => rfl
    | succ k ih =>
      show (batch_copy cfg (batchNth cfg it k)).2 = it
      rw [ih, h0]
  refine ⟨0, fun k hk => by omega, fun k _ => ?_, by simp⟩
  unfold batchCounts
  rw [hall k, h0]

/-- Prepending one nonzero call to a claim-satisfying run adds its count
    to the total. -/
theorem BatchClaim_cons (cfg : BatchCfg) (it : BatchIt)
    (hne : (batch_copy cfg it).1 ≠ 0) (tot1 : ℕ)
    (h : BatchClaim cfg ((batch_copy cfg it).2) tot1) :
    BatchClaim cfg it ((batch_copy cfg it).1 + tot1) := by
  obtain ⟨K, hK1, hK2, hK3⟩ := h
  refine ⟨K + 1, ?_, ?_, ?_⟩
  · intro k hk
    cases k with
    | zero => exact hne
    | succ k =>
      rw [batchCounts_shift]
      exact hK1 k (by omega)
  · intro k hk
    cases k with
    | zero => omega
    | succ k =>
      rw [batchCounts_shift]
      exact hK2 k (by omega)
  · rw [Finset.sum_range_succ']
    have hshift : ∀ i, batchCounts cfg it (i + 1)
        = batchCounts cfg ((batch_copy cfg it).2) i :=
      fun i => batchCounts_shift cfg it i
    rw [Finset.sum_congr rfl (fun i _ => hshift i), hK3]
    have h0 : batchCounts cfg it 0 = (batch_copy cfg it).1 := rfl
    rw [h0]
    omega

/-- Iteration property for the flat cursor: from position cv the counts sum
    to num - cv, each pre-exhaustion call is nonzero, every later call is 0
    (requires a positive batch size). -/
theorem flat_claim (cfg : BatchCfg) (hB : 1 ≤ cfg.B) :
    ∀ (d : ℕ) (vec : List ℕ) (cv : ℕ), cfg.num - cv = d →
      BatchClaim cfg (.flat vec cv) d := by
  intro d
  induction d using Nat.strong_induction_on with
  | _ d ih =>
    intro vec cv hd
    rcases Nat.eq_zero_or_pos d with h0 | hpos
    · subst h0
      apply BatchClaim_zero
      simp [batch_copy, hd]
    · have hc1 : 1 ≤ min cfg.B (cfg.num - cv) := Nat.le_min.mpr ⟨hB, by omega⟩
      have hc2 : min cfg.B (cfg.num - cv) ≤ cfg.num - cv := min_le_right _ _
      have hcnt : (batch_copy cfg (.flat vec cv)).1 = min cfg.B (cfg.num - cv) := rfl
      have hnext : (batch_copy cfg (.flat vec cv)).2
          = .flat vec (cv + min cfg.B (cfg.num - cv)) := rfl
      have ihc := ih (d - min cfg.B (cfg.num - cv)) (by omega) vec
        (cv + min cfg.B (cfg.num - cv)) (by omega)
      have hmain := BatchClaim_cons cfg (.flat vec cv)
        (by rw [hcnt]; omega) (d - min cfg.B (cfg.num - cv))
        (by rw [hnext]; exact ihc)
      rw [hcnt] at hmain
      rw [show min cfg.B (cfg.num - cv) + (d - min cfg.B (cfg.num - cv)) = d
            from by omega] at hmain
      exact hmain

/-- Iteration property for the plain sequential cursor (same dynamics as
    the flat cursor). -/
theorem plain_claim (cfg : BatchCfg) (hB : 1 ≤ cfg.B) :
    ∀ (d : ℕ) (cv : ℕ), cfg.num - cv = d → BatchClaim cfg (.plain cv) d := by
  intro d
  induction d using Nat.strong_induction_on with
  | _ d ih =>
    intro cv hd
    rcases Nat.eq_zero_or_pos d with h0 | hpos
    · subst h0
      apply BatchClaim_zero
      simp [batch_copy, hd]
    · have hc1 : 1 ≤ min cfg.B (cfg.num - cv) := Nat.le_min.mpr ⟨hB, by omega⟩
      have hc2 : min cfg.B (cfg.num - cv) ≤ cfg.num - cv := min_le_right _ _
      have hcnt : (batch_copy cfg (.plain cv)).1 = min cfg.B (cfg.num - cv) := rfl
      have hnext : (batch_copy cfg (.plain cv)).2
          = .plain (cv + min cfg.B (cfg.num - cv)) := rfl
      have ihc := ih (d - min cfg.B (cfg.num - cv)) (by omega)
        (cv + min cfg.B (cfg.num - cv)) (by omega)
      have hmain := BatchClaim_cons cfg (.plain cv)
        (by rw [hcnt]; omega) (d - min cfg.B (cfg.num - cv))
        (by rw [hnext]; exact ihc)
      rw [hcnt] at hmain
      rw [show min cfg.B (cfg.num - cv) + (d - min cfg.B (cfg.num - cv)) = d
            from by omega] at hmain
      exact hmain

/-- Iteration property for the sequence-grouped cursor: with every sequence
    nonempty and a positive batch size, from a cursor inside the current
    sequence the counts sum to the remaining sample count. -/
theorem seqs_claim (cfg : BatchCfg) (hB : 1 ≤ cfg.B) :
    ∀ (d : ℕ) (starts lens : List ℕ) (cs cv : ℕ),
      lens.length = cfg.num → (∀ x ∈ lens, 1 ≤ x) →
      (cs < cfg.num → cv < lens.getD cs 0) →
      (lens.drop cs).sum - cv = d →
      BatchClaim cfg (.seqs starts lens cs cv) d := by
  intro d
  induction d using Nat.strong_induction_on with
  | _ d ih =>
    intro starts lens cs cv hlen hmin hinv hd
    by_cases hcs : cs < cfg.num
    · have hcs_len : cs < lens.length := by omega
      have hseq1 : 1 ≤ lens.getD cs 0 := by
        apply hmin
        rw [List.getD_eq_getElem _ _ hcs_len]
        exact List.getElem_mem hcs_len
      have hcv : cv < lens.getD cs 0 := hinv hcs
      have hdrop : (lens.drop cs).sum
          = lens.getD cs 0 + (lens.drop (cs + 1)).sum := by
        rw [List.drop_eq_getElem_cons hcs_len, List.sum_cons,
            List.getD_eq_getElem _ _ hcs_len]
      have hc1 : 1 ≤ min cfg.B (lens.getD cs 0 - cv) :=
        Nat.le_min.mpr ⟨hB, by omega⟩
      have hc2 : min cfg.B (lens.getD cs 0 - cv) ≤ lens.getD cs 0 - cv :=
        min_le_right _ _
      have hcopy : batch_copy cfg (.seqs starts lens cs cv)
          = (min cfg.B (lens.getD cs 0 - cv),
             if lens.getD cs 0 ≤ cv + min cfg.B (lens.getD cs 0 - cv)
             then .seqs starts lens (cs + 1) 0
             else .seqs starts lens cs (cv + min cfg.B (lens.getD cs 0 - cv))) := by
        simp only [batch_copy, if_pos hcs]
        by_cases h : lens.getD cs 0 ≤ cv + min cfg.B (lens.getD cs 0 - cv) <;>
          simp only [if_pos, if_neg, h, if_true, if_false]
      have hcnt : (batch_copy cfg (.seqs starts lens cs cv)).1
          = min cfg.B (lens.getD cs 0 - cv) := by rw [hcopy]
      have hnext : (batch_copy cfg (.seqs starts lens cs cv)).2
          = if lens.getD cs 0 ≤ cv + min cfg.B (lens.getD cs 0 - cv)
            then .seqs starts lens (cs + 1) 0
            else .seqs starts lens cs (cv + min cfg.B (lens.getD cs 0 - cv)) := by
        rw [hcopy]
      have hcd : min cfg.B (lens.getD cs 0 - cv) ≤ d := by omega
      by_cases hadv : lens.getD cs 0 ≤ cv + min cfg.B (lens.getD cs 0 - cv)
      · have hinv1 : cs + 1 < cfg.num → 0 < lens.getD (cs + 1) 0 := by
          intro h
          apply hmin
          rw [List.getD_eq_getElem _ _ (by omega : cs + 1 < lens.length)]
          exact List.getElem_mem (by omega)
        have hmeas : (lens.drop (cs + 1)).sum - 0
            = d - min cfg.B (lens.getD cs 0 - cv) := by omega
        have ihc := ih (d - min cfg.B (lens.getD cs 0 - cv)) (by omega)
          starts lens (cs + 1) 0 hlen hmin hinv1 hmeas
        have hmain := BatchClaim_cons cfg (.seqs starts lens cs cv)
          (by rw [hcnt]; omega)
          (d - min cfg.B (lens.getD cs 0 - cv))
          (by rw [hnext, if_pos hadv]; exact ihc)
        rw [hcnt] at hmain
        rw [show min cfg.B (lens.getD cs 0 - cv)
              + (d - min cfg.B (lens.getD cs 0 - cv)) = d from by omega] at hmain
        exact hmain
      · have hstay : cv + min cfg.B (lens.getD cs 0 - cv) < lens.getD cs 0 := by
          omega
        have hmeas : (lens.drop cs).sum - (cv + min cfg.B (lens.getD cs 0 - cv))
            = d - min cfg.B (lens.getD cs 0 - cv) := by omega
        have ihc := ih (d - min cfg.B (lens.getD cs 0 - cv)) (by omega)
          starts lens cs (cv + min cfg.B (lens.getD cs 0 - cv)) hlen hmin
          (fun _ => hstay) hmeas
        have hmain := BatchClaim_cons cfg (.seqs starts lens cs cv)
          (by rw [hcnt]; omega)
          (d - min cfg.B (lens.getD cs 0 - cv))
          (by rw [hnext, if_neg hadv]; exact ihc)
        rw [hcnt] at hmain
        rw [show min cfg.B (lens.getD cs 0 - cv)
              + (d - min cfg.B (lens.getD cs 0 - cv)) = d from by omega] at hmain
        exact hmain
    · have hnil : lens.drop cs = [] := List.drop_eq_nil_of_le (by omega)
      have hd0 : d = 0 := by
        rw [hnil] at hd
        simpa using hd.symm
      subst hd0
      apply BatchClaim_zero
      simp [batch_copy, hcs]

/-- Claim C7 amended: for a batch iterator with batch size at least 1,
    every sequence nonempty in sequence-grouped mode, and the generator
    state inside the Lehmer generator's range, starting immediately after
    batch_shuffle the counts returned by successive batch_copy calls are
    nonzero up to a cut K, zero from K on, and the first K counts sum to
    the total number of samples in the dataset. -/
theorem batch_counts_total (cfg : BatchCfg) (it0 : BatchIt) (s : ℤ)
    (hB : 1 ≤ cfg.B) (hs1 : 1 ≤ s) (hs2 : s < 2147483647)
    (hwf : match it0 with
           | .seqs _ lens _ _ => lens.length = cfg.num ∧ ∀ x ∈ lens, 1 ≤ x
           | _ => True) :
    BatchClaim cfg (batch_shuffle cfg it0 s).1 (datasetTotal cfg it0) := by
  cases it0 with
  | seqs starts lens cs cv =>
    obtain ⟨hlen, hmin⟩ := hwf
    obtain ⟨st2, l2, s2, heq, hlen2, hsum2, hmin2⟩ :=
      batch_shuffle_seqs cfg starts lens cs cv s hlen hmin hs1 hs2
    rw [heq]
    show BatchClaim cfg (.seqs st2 l2 0 0) lens.sum
    have hinv0 : 0 < cfg.num → 0 < l2.getD 0 0 := by
      intro h
      apply hmin2
      rw [List.getD_eq_getElem _ _ (by omega : 0 < l2.length)]
      exact List.getElem_mem (by omega)
    have := seqs_claim cfg hB l2.sum st2 l2 0 0 hlen2 hmin2 hinv0 (by simp)
    rw [hsum2] at this
    exact this
  | flat vec cv =>
    by_cases hsh : cfg.shuffle = true
    · simp only [batch_shuffle, hsh, if_true]
      exact flat_claim cfg hB cfg.num _ 0 (by omega)
    · rw [Bool.not_eq_true] at hsh
      simp only [batch_shuffle, hsh, Bool.false_eq_true, if_false]
      exact flat_claim cfg hB cfg.num vec 0 (by omega)
  | plain cv =>
    show BatchClaim cfg (.plain 0) cfg.num
    exact plain_claim cfg hB cfg.num 0 (by omega)

/-- Witness for batch_counts_total with batch size 1, two flat rows and a
    plain (unshuffled) iterator. -/
theorem batch_counts_total_witness :
    BatchClaim ⟨1, 2, false⟩
      (batch_shuffle ⟨1, 2, false⟩ (BatchIt.plain 0) 1).1
      (datasetTotal ⟨1, 2, false⟩ (BatchIt.plain 0)) :=
  batch_counts_total ⟨1, 2, false⟩ (BatchIt.plain 0) 1
    (by norm_num) (by norm_num) (by norm_num) trivial

/-- Counterexample to claim C7 as stated: with batch size 1 and the two
    sequences of lengths 0 and 1 (total 1 sample), the first batch_copy
    call after batch_shuffle returns 0 while the second returns 1, so the
    counts up to the first zero sum to 0, not to the dataset total, and a
    call after a zero return is nonzero. -/
theorem batch_empty_seq_counterexample :
    batchCounts ⟨1, 2, false⟩
        (batch_shuffle ⟨1, 2, false⟩ (BatchIt.seqs [0, 0] [0, 1] 0 0) 1).1 0 = 0
    ∧ batchCounts ⟨1, 2, false⟩
        (batch_shuffle ⟨1, 2, false⟩ (BatchIt.seqs [0, 0] [0, 1] 0 0) 1).1 1 = 1
    ∧ datasetTotal ⟨1, 2, false⟩ (BatchIt.seqs [0, 0] [0, 1] 0 0) = 1
    ∧ ¬ BatchClaim ⟨1, 2, false⟩
        (batch_shuffle ⟨1, 2, false⟩ (BatchIt.seqs [0, 0] [0, 1] 0 0) 1).1 1 := by
  refine ⟨by decide, by decide, by decide, ?_⟩
  rintro ⟨K, h1, h2, h3⟩
  cases K with
  | zero =>
    simp only [Finset.range_zero, Finset.sum_empty] at h3
    exact absurd h3 (by norm_num)
  | succ K =>
    have hc0 : batchCounts ⟨1, 2, false⟩
        (batch_shuffle ⟨1, 2, false⟩ (BatchIt.seqs [0, 0] [0, 1] 0 0) 1).1 0 = 0 := by
      decide
    exact h1 0 (by omega) hc0

/-- expB is nonnegative. -/
theorem expB_nonneg (a : WithBot ℝ) : 0 ≤ expB a := by
  induction a using WithBot.recBotCoe with
  | bot => exact le_refl 0
  | coe x => exact (Real.exp_pos x).le

/-- expB vanishes exactly at -infinity. -/
theorem expB_eq_zero_iff (a : WithBot ℝ) : expB a = 0 ↔ a = ⊥ := by
  induction a using WithBot.recBotCoe with
  | bot => simp [expB]
  | coe x =>
    constructor
    · intro h
      exact absurd h (Real.exp_ne_zero x)
    · intro h
      exact absurd h (by simp)

/-- expB is injective on log-domain values. -/
theorem expB_inj (a b : WithBot ℝ) (h : expB a = expB b) : a = b := by
  induction a using WithBot.recBotCoe with
  | bot =>
    induction b using WithBot.recBotCoe with
    | bot => rfl
    | coe y => exact absurd h.symm (Real.exp_ne_zero y)
  | coe x =>
    induction b using WithBot.recBotCoe with
    | bot => exact absurd h (Real.exp_ne_zero x)
    | coe y =>
      have : x = y := Real.exp_injective h
      rw [this]

/-- The pairwise logsumexp of ctc.c computes exp-sum in log domain:
    expB (lseB a b) = expB a + expB b, including the -infinity cases. -/
theorem expB_lseB (a b : WithBot ℝ) : expB (lseB a b) = expB a + expB b := by
  induction a using WithBot.recBotCoe with
  | bot => simp [lseB, expB]
  | coe x =>
    induction b using WithBot.recBotCoe with
    | bot => simp [lseB, expB]
    | coe y =>
      show expB ↑(if y ≤ x then x + Real.log (1 + Real.exp (y - x))
                  else y + Real.log (1 + Real.exp (x - y)))
          = Real.exp x + Real.exp y
      by_cases h : y ≤ x
      · rw [if_pos h]
        show Real.exp (x + Real.log (1 + Real.exp (y - x))) = _
        rw [Real.exp_add, Real.exp_log (by positivity), mul_add, mul_one,
            ← Real.exp_add, show x + (y - x) = y from by ring]
      · rw [if_neg h]
        show Real.exp (y + Real.log (1 + Real.exp (x - y))) = _
        rw [Real.exp_add, Real.exp_log (by positivity), mul_add, mul_one,
            ← Real.exp_add, show y + (x - y) = x from by ring]
        ring

/-- The n-ary logsumexp computes the exp-sum of its list in log domain. -/
theorem expB_logSumExpList (l : List (WithBot ℝ)) :
    expB (logSumExpList l) = (l.map expB).sum := by
  unfold logSumExpList
  split_ifs with h
  · have : ∀ x ∈ l.map expB, x = 0 := by
      intro x hx
      obtain ⟨a, ha, rfl⟩ := List.mem_map.mp hx
      rw [h a ha]
      rfl
    rw [List.sum_eq_zero this]
    rfl
  · push_neg at h
    obtain ⟨a, ha, hane⟩ := h
    have hpos : 0 < (l.map expB).sum := by
      have h1 : 0 < expB a := by
        rcases (expB_nonneg a).lt_or_eq with h1 | h1
        · exact h1
        · exact absurd ((expB_eq_zero_iff a).mp h1.symm) hane
      have h2 : expB a ≤ (l.map expB).sum :=
        List.single_le_sum (by
          intro x hx
          obtain ⟨b, _, rfl⟩ := List.mem_map.mp hx
          exact expB_nonneg b) _ (List.mem_map_of_mem expB ha)
      linarith
    show Real.exp (Real.log ((l.map expB).sum)) = _
    exact Real.exp_log hpos

/-- Folding the pairwise logsumexp over a list computes the n-ary
    logsumexp in log domain. -/
theorem expB_foldl_lseB (l : List (WithBot ℝ)) :
    ∀ a, expB (l.foldl lseB a) = expB a + (l.map expB).sum := by
  induction l with
  | nil => intro a; simp
  | cons x xs ih =>
    intro a
    show expB (xs.foldl lseB (lseB a x)) = _
    rw [ih (lseB a x), expB_lseB]
    simp [add_assoc]

/-- lseB with a -infinity left unit. -/
theorem lseB_bot_left (b : WithBot ℝ) : lseB ⊥ b = b := rfl

/-- The left fold of lseB starting at -infinity equals logSumExpList. -/
theorem foldl_lseB_eq (l : List (WithBot ℝ)) :
    l.foldl lseB ⊥ = logSumExpList l := by
  apply expB_inj
  rw [expB_foldl_lseB, expB_logSumExpList]
  show (0 : ℝ) + _ = _
  rw [zero_add]

/-- The per-timestep probability fold of ctc_loss equals the spec-side
    n-ary logsumexp over positions. -/
theorem foldl_range_lseB (S : ℕ) (f : ℕ → WithBot ℝ) :
    (List.range S).foldl (fun p s => lseB p (f s)) ⊥ = logSumExpAll S f := by
  rw [show (List.range S).foldl (fun p s => lseB p (f s)) ⊥
        = ((List.range S).map f).foldl lseB ⊥ from
        (List.foldl_map f lseB (List.range S) ⊥).symm]
  rw [foldl_lseB_eq]
  rfl

/-- logSumExpList on a singleton is the element itself. -/
theorem logSumExpList_one (a : WithBot ℝ) : logSumExpList [a] = a := by
  apply expB_inj
  rw [expB_logSumExpList]
  simp

/-- lseB equals the n-ary logsumexp of the corresponding pair. -/
theorem lseB_eq_pair (a b : WithBot ℝ) : lseB a b = logSumExpList [a, b] := by
  apply expB_inj
  rw [expB_lseB, expB_logSumExpList]
  simp

/-- A chained lseB of three values equals the n-ary logsumexp of the
    three-element list. -/
theorem lseB_eq_triple (a b c : WithBot ℝ) :
    lseB (lseB a b) c = logSumExpList [a, b, c] := by
  apply expB_inj
  rw [expB_lseB, expB_lseB, expB_logSumExpList]
  simp [add_assoc]

/-- The alpha table built by the ctc_loss loops satisfies claim C1's
    characterization: the Equation 7.5/7.6 boundary values, -infinity
    outside the reachable range, and the n-ary logsumexp recurrence over
    the allowed predecessors inside it. -/
theorem alphaT_spec (lp : ℕ → ℕ → ℝ) (lab : ℕ → ℕ) (blank T S : ℕ) :
    CTCAlphaSpec lp lab blank T S (alphaT lp lab blank T S) := by
  refine ⟨rfl, ?_, ?_, ?_⟩
  · intro hS
    simp [alphaT, hS]
  · intro s h2 _
    simp only [alphaT]
    rw [if_neg (by omega), if_neg (by omega)]
  · intro t s ht hTt hS
    obtain ⟨t1, rfl⟩ : ∃ t1, t = t1 + 1 := ⟨t - 1, by omega⟩
    have hiff : (2 ≤ s ∧ ¬(lab s = blank ∨ lab (s - 2) = lab s))
        ↔ (2 ≤ s ∧ lab s ≠ blank ∧ lab (s - 2) ≠ lab s) := by
      constructor
      · rintro ⟨h, hh⟩
        exact ⟨h, fun hb => hh (Or.inl hb), fun hb => hh (Or.inr hb)⟩
      · rintro ⟨h, hb, hc⟩
        exact ⟨h, fun hor => hor.elim hb hc⟩
    constructor
    · intro hstart hend
      simp only [alphaT]
      rw [if_neg (by omega)]
      simp only [Nat.add_sub_cancel]
      congr 1
      by_cases h1 : 1 ≤ s
      · by_cases h2 : 2 ≤ s ∧ ¬(lab s = blank ∨ lab (s - 2) = lab s)
        · rw [if_pos h1, if_pos h2, if_pos h1, if_pos (hiff.mp h2)]
          exact lseB_eq_triple _ _ _
        · rw [if_pos h1, if_neg h2, if_pos h1, if_neg (fun hc => h2 (hiff.mpr hc))]
          exact lseB_eq_pair _ _
      · have hs0 : s = 0 := by omega
        subst hs0
        rw [if_neg h1, if_neg (by simp), if_neg h1,
            if_neg (by rintro ⟨h, _⟩; omega)]
        exact (logSumExpList_one _).symm
    · intro hout
      simp only [alphaT]
      rw [if_pos (by omega)]

/-- Claim C1: for T >= 1 timesteps, the loss returned by ctc_loss is the
    mean over timesteps of the negated n-ary log-sum-exp over all padded
    positions s of alpha[t][s] + beta[t][s], and the stored alpha table
    satisfies the claimed boundary values, recurrence and pruning, where
    log p comes from the stored log-scale copy of yp and the padded label
    is the one built by the call. -/
theorem ctc_loss_spec (st : CTCState) (yp yt : ℕ → ℕ → ℝ) (T L : ℕ)
    (hT : 1 ≤ T) :
    (ctc_loss st yp yt T L).1
      = divTop (∑ t in Finset.range T,
          negTop (logSumExpAll (ctc_loss st yp yt T L).2.label.length
            (fun s => (ctc_loss st yp yt T L).2.alpha t s
                      + (ctc_loss st yp yt T L).2.beta t s))) T
    ∧ CTCAlphaSpec (fun t l => Real.log (yp t l))
        (fun s => (ctc_loss st yp yt T L).2.label.getD s st.blank)
        st.blank T (ctc_loss st yp yt T L).2.label.length
        (ctc_loss st yp yt T L).2.alpha := by
  have hT0 : ¬(T = 0) := by omega
  simp only [ctc_loss, if_neg hT0]
  constructor
  · congr 1
    refine Finset.sum_congr rfl (fun t _ => ?_)
    rw [foldl_range_lseB]
  · exact alphaT_spec _ _ _ _ _

/-- Witness for ctc_loss_spec at T = 1, L = 1, blank 0, constant inputs. -/
theorem ctc_loss_spec_witness :
    1 ≤ 1 ∧
    ((ctc_loss (ctcCreate 0) (fun _ _ => 1) (fun _ _ => 1) 1 1).1
      = divTop (∑ t in Finset.range 1,
          negTop (logSumExpAll
            (ctc_loss (ctcCreate 0) (fun _ _ => 1) (fun _ _ => 1) 1 1).2.label.length
            (fun s => (ctc_loss (ctcCreate 0) (fun _ _ => 1) (fun _ _ => 1) 1 1).2.alpha t s
              + (ctc_loss (ctcCreate 0) (fun _ _ => 1) (fun _ _ => 1) 1 1).2.beta t s))) 1
    ∧ CTCAlphaSpec (fun _ _ => Real.log 1)
        (fun s => (ctc_loss (ctcCreate 0) (fun _ _ => 1) (fun _ _ => 1) 1 1).2.label.getD s 0)
        0 1 (ctc_loss (ctcCreate 0) (fun _ _ => 1) (fun _ _ => 1) 1 1).2.label.length
        (ctc_loss (ctcCreate 0) (fun _ _ => 1) (fun _ _ => 1) 1 1).2.alpha) :=
  ⟨le_refl 1, ctc_loss_spec (ctcCreate 0) (fun _ _ => 1) (fun _ _ => 1) 1 1 (le_refl 1)⟩

end Mlinc
